import Mathlib

/-!
Shallow embedding of the bitcoin block-header / Merkle verification core
(crate `common`, plus the guest program's checks). Byte buffers are
`List Nat` with every element `< 256`; fixed-width machine integers are
`Nat` (or `Int` for the signed `version` field) with explicit reductions
`% 2^w` exactly where the machine arithmetic wraps or truncates.
-/

namespace BitcoinRisc0

/-- Modelled from the spec: the SHA-256 primitive used by `DoubleHash`
(the source calls the external `bitcoin_hashes::sha256d` library, whose
code is not part of this repository). This is the standard FIPS 180-4
SHA-256 compression pipeline; the known-value genesis and txid test
vectors below validate it. Right rotation of a 32-bit word. -/
def rotr32 (n x : Nat) : Nat :=
  ((x >>> n) ||| (x <<< (32 - n))) % 2 ^ 32

def shaCh (x y z : Nat) : Nat := (x &&& y) ^^^ ((x ^^^ 0xFFFFFFFF) &&& z)

def shaMaj (x y z : Nat) : Nat := (x &&& y) ^^^ (x &&& z) ^^^ (y &&& z)

def bigSigma0 (x : Nat) : Nat := rotr32 2 x ^^^ rotr32 13 x ^^^ rotr32 22 x

def bigSigma1 (x : Nat) : Nat := rotr32 6 x ^^^ rotr32 11 x ^^^ rotr32 25 x

def smallSigma0 (x : Nat) : Nat := rotr32 7 x ^^^ rotr32 18 x ^^^ (x >>> 3)

def smallSigma1 (x : Nat) : Nat := rotr32 17 x ^^^ rotr32 19 x ^^^ (x >>> 10)

/-- The 64 SHA-256 round constants (decimal). -/
def shaK : List Nat :=
  [1116352408, 1899447441, 3049323471, 3921009573, 961987163,
   1508970993, 2453635748, 2870763221, 3624381080, 310598401, 607225278,
   1426881987, 1925078388, 2162078206, 2614888103, 3248222580,
   3835390401, 4022224774, 264347078, 604807628, 770255983, 1249150122,
   1555081692, 1996064986, 2554220882, 2821834349, 2952996808,
   3210313671, 3336571891, 3584528711, 113926993, 338241895, 666307205,
   773529912, 1294757372, 1396182291, 1695183700, 1986661051,
   2177026350, 2456956037, 2730485921, 2820302411, 3259730800,
   3345764771, 3516065817, 3600352804, 4094571909, 275423344, 430227734,
   506948616, 659060556, 883997877, 958139571, 1322822218, 1537002063,
   1747873779, 1955562222, 2024104815, 2227730452, 2361852424,
   2428436474, 2756734187, 3204031479, 3329325298]

/-- Parse a byte list into big-endian 32-bit words, four bytes per word. -/
def bytesToWords : List Nat → List Nat
  | a :: b :: c :: d :: rest => (((a * 256 + b) * 256 + c) * 256 + d) :: bytesToWords rest
  | _ => []

/-- One step of the SHA-256 message-schedule extension acting on a window
holding the previous 16 words, oldest first. -/
def scheduleStep (w : List Nat) : Nat :=
  match w with
  | [w0, w1, _, _, _, _, _, _, _, w9, _, _, _, _, w14, _] =>
      (smallSigma1 w14 + w9 + smallSigma0 w1 + w0) % 2 ^ 32
  | _ => 0

/-- Extend the message schedule by `n` further words. -/
def scheduleExtend : Nat → List Nat → List Nat
  | 0, _ => []
  | n + 1, window =>
      let nw := scheduleStep window
      nw :: scheduleExtend n (window.tail ++ [nw])

/-- The full 64-word message schedule of one 64-byte block. -/
def schedule (block : List Nat) : List Nat :=
  let w := bytesToWords block
  w ++ scheduleExtend 48 w

/-- The eight 32-bit words of SHA-256 working state. -/
structure H8 where
  a : Nat
  b : Nat
  c : Nat
  d : Nat
  e : Nat
  f : Nat
  g : Nat
  h : Nat
deriving DecidableEq

/-- One SHA-256 round: consume one (round constant, schedule word) pair. -/
def shaRound (st : H8) (kw : Nat × Nat) : H8 :=
  let t1 := (st.h + bigSigma1 st.e + shaCh st.e st.f st.g + kw.1 + kw.2) % 2 ^ 32
  let t2 := (bigSigma0 st.a + shaMaj st.a st.b st.c) % 2 ^ 32
  ⟨(t1 + t2) % 2 ^ 32, st.a, st.b, st.c, (st.d + t1) % 2 ^ 32, st.e, st.f, st.g⟩

/-- Compress one 64-byte block into the running hash state. -/
def processBlock (st : H8) (block : List Nat) : H8 :=
  let f := (shaK.zip (schedule block)).foldl shaRound st
  ⟨(st.a + f.a) % 2 ^ 32, (st.b + f.b) % 2 ^ 32, (st.c + f.c) % 2 ^ 32,
   (st.d + f.d) % 2 ^ 32, (st.e + f.e) % 2 ^ 32, (st.f + f.f) % 2 ^ 32,
   (st.g + f.g) % 2 ^ 32, (st.h + f.h) % 2 ^ 32⟩

/-- SHA-256 initial hash state (decimal). -/
def shaInit : H8 :=
  ⟨1779033703, 3144134277, 1013904242, 2773480762, 1359893119,
   2600822924, 528734635, 1541459225⟩

/-- `n` big-endian bytes of `x`. -/
def beBytes : Nat → Nat → List Nat
  | 0, _ => []
  | n + 1, x => beBytes n (x / 256) ++ [x % 256]

/-- SHA-256 padding: a `0x80` byte, zeros to 56 mod 64, then the bit
length as a big-endian 64-bit integer. -/
def padMessage (msg : List Nat) : List Nat :=
  let l := msg.length
  let zeros := (64 + 56 - (l + 1) % 64) % 64
  msg ++ 0x80 :: List.replicate zeros 0 ++ beBytes 8 (8 * l % 2 ^ 64)

/-- Split a (padded) byte list into 64-byte blocks; structural recursion
on a fuel argument (one unit per block, so the list length is always
enough fuel). -/
def chunk64Go : Nat → List Nat → List (List Nat)
  | 0, _ => []
  | fuel + 1, l => if l = [] then [] else l.take 64 :: chunk64Go fuel (l.drop 64)

/-- Split a (padded) byte list into 64-byte blocks. -/
def chunk64 (l : List Nat) : List (List Nat) := chunk64Go l.length l

/-- Serialize the final state as 32 big-endian bytes. -/
def wordsToBytes (ws : List Nat) : List Nat :=
  ws.flatMap fun w => [w >>> 24 &&& 0xFF, w >>> 16 &&& 0xFF, w >>> 8 &&& 0xFF, w &&& 0xFF]

/-- Full SHA-256 of a byte list. -/
def sha256 (msg : List Nat) : List Nat :=
  let st := (chunk64 (padMessage msg)).foldl processBlock shaInit
  wordsToBytes [st.a, st.b, st.c, st.d, st.e, st.f, st.g, st.h]

/-- Modelled from the spec: `DoubleHash.digest` — SHA-256 applied twice
(the source delegates to the external `bitcoin_hashes::sha256d` crate). -/
def sha256d (msg : List Nat) : List Nat := sha256 (sha256 msg)

/-- Little-endian value of a byte list (`u128::from_le_bytes` applied to a
16-byte slice yields exactly this number). -/
def leNat (l : List Nat) : Nat := l.foldr (fun b acc => b + 256 * acc) 0

/-- `pub struct U256(u128, u128)` — field `hi` is `u.0` (the high bits),
field `lo` is `u.1` (the low bits). -/
structure U256 where
  hi : Nat
  lo : Nat
deriving DecidableEq

/-- `U256::ZERO`. -/
def U256.ZERO : U256 := ⟨0, 0⟩

/-- The numeric value of a `U256`. -/
def U256.value (u : U256) : Nat := u.hi * 2 ^ 128 + u.lo

/-- The derived lexicographic `<=` of `U256(u128, u128)` (Rust
`#[derive(PartialOrd, Ord)]` compares `u.0` first, then `u.1`). -/
def U256.le (a b : U256) : Prop :=
  a.hi < b.hi ∨ (a.hi = b.hi ∧ a.lo ≤ b.lo)

instance (a b : U256) : Decidable (U256.le a b) := by
  unfold U256.le
  infer_instance

/-- `fn split_in_half(a: [u8; 32]) -> ([u8; 16], [u8; 16])`: `high` gets
`a[..16]`, `low` gets `a[16..]`. -/
def split_in_half (a : List Nat) : List Nat × List Nat :=
  (a.take 16, a.drop 16)

/-- `U256::from_le_bytes`: `little` decodes `high` (the first half),
`big` decodes `low` (the second half), and the result is
`U256(big, little)`. -/
def U256.from_le_bytes (a : List Nat) : U256 :=
  let high := (split_in_half a).1
  let low := (split_in_half a).2
  let little := leNat high
  let big := leNat low
  ⟨big, little⟩

/-- `U256::wrapping_shl`: the shift amount is masked to `rhs & 0xff`;
`u128` shifts discard bits above bit 127 (the `% 2 ^ 128`), and the
`+=` on `u128` wraps. -/
def U256.wrapping_shl (self : U256) (rhs : Nat) : U256 :=
  let shift := rhs &&& 0xff
  let word_shift := 128 ≤ shift
  let bit_shift := shift % 128
  if word_shift then
    ⟨(self.lo <<< bit_shift) % 2 ^ 128, 0⟩
  else
    let hi0 := (self.hi <<< bit_shift) % 2 ^ 128
    let hi := if 0 < bit_shift
      then (hi0 + (self.lo >>> (128 - bit_shift))) % 2 ^ 128
      else hi0
    ⟨hi, (self.lo <<< bit_shift) % 2 ^ 128⟩

/-- `impl<T: Into<u128>> From<T> for U256`: embed a small value as the
low half. -/
def U256.from_u128 (x : Nat) : U256 := ⟨0, x⟩

/-- `pub struct Header`. `version` is `i32`, so it is an `Int`;
`prev_blockhash` and `merkle_root` are `[u8; 32]` byte lists; the other
fields are `u32`. -/
structure Header where
  version : Int
  prev_blockhash : List Nat
  merkle_root : List Nat
  time : Nat
  bits : Nat
  nonce : Nat
deriving DecidableEq

/-- `u32::to_le_bytes`. -/
def u32_le (x : Nat) : List Nat :=
  [x % 256, x / 256 % 256, x / 2 ^ 16 % 256, x / 2 ^ 24 % 256]

/-- `i32::to_le_bytes`: little-endian bytes of the two's-complement
bit pattern. -/
def i32_le (v : Int) : List Nat := u32_le (v % (2 ^ 32 : Int)).toNat

/-- `Header::serialize_block_header`. -/
def Header.serialize_block_header (h : Header) : List Nat :=
  i32_le h.version ++ h.prev_blockhash ++ h.merkle_root ++
    u32_le h.time ++ u32_le h.bits ++ u32_le h.nonce

/-- `Header::calculate_hash`: double SHA-256 of the 80-byte
serialization. -/
def Header.calculate_hash (h : Header) : List Nat :=
  sha256d h.serialize_block_header

/-- `Header::target`: decode the compact `bits` field. `mant` and `expt`
come from the `unshifted_expt <= 3` case split; the sign check
`mant > 0x7F_FFFF` then either short-circuits to `ZERO` or the mantissa
is left-shifted via `Shl for U256`, which is `wrapping_shl`. -/
def Header.target (h : Header) : U256 :=
  let bits := h.bits
  let unshifted_expt := bits >>> 24
  let me :=
    if unshifted_expt ≤ 3 then
      ((bits &&& 0xFFFFFF) >>> (8 * (3 - unshifted_expt)), 0)
    else
      (bits &&& 0xFFFFFF, 8 * ((bits >>> 24) - 3))
  if 0x7FFFFF < me.1 then U256.ZERO
  else U256.wrapping_shl (U256.from_u128 me.1) me.2

/-- `Header::validate_target`: interpret the header hash as a
little-endian 256-bit number and compare it to the target with the
derived (lexicographic) order. -/
def Header.validate_target (h : Header) : Bool :=
  let block_hash := h.calculate_hash
  let target := h.target
  let hash := U256.from_le_bytes block_hash
  decide (U256.le hash target)

/-- `pub struct Transaction \x7b data: Vec<u8> \x7d`. -/
structure Transaction where
  data : List Nat
deriving DecidableEq

/-- `Transaction::txid`: double SHA-256 of the raw transaction bytes. -/
def Transaction.txid (tx : Transaction) : List Nat := sha256d tx.data

/-- `pub struct Block`. -/
structure Block where
  header : Header
  txdata : List Transaction
deriving DecidableEq

/-- The body of the `for i in (0..hashes.len()).step_by(2)` loop of
`calculate_merkle_root`: hash adjacent pairs; an unpaired trailing hash
is combined with itself. -/
def hashPairs : List (List Nat) → List (List Nat)
  | [] => []
  | [a] => [sha256d (a ++ a)]
  | a :: b :: rest => sha256d (a ++ b) :: hashPairs rest

/-- The `while hashes.len() > 1` loop of `calculate_merkle_root`,
as structural recursion on a fuel argument. `merkleLoopGo_fuel` below
shows the result does not depend on the fuel as soon as the fuel is at
least the list length, so `merkleLoop` (which passes the length) is the
loop's true fixed point. -/
def merkleLoopGo : Nat → List (List Nat) → List (List Nat)
  | 0, hashes => hashes
  | fuel + 1, hashes =>
      if 1 < hashes.length then merkleLoopGo fuel (hashPairs hashes) else hashes

/-- The `while hashes.len() > 1` loop of `calculate_merkle_root`. -/
def merkleLoop (hashes : List (List Nat)) : List (List Nat) :=
  merkleLoopGo hashes.length hashes

/-- `fn calculate_merkle_root`: the early return for a single hash, then
the level-reduction loop; the final `hashes[0]` indexing (which panics on
an empty vector) is modelled by `List.head?`, with `none` standing for
the panic. -/
def calculate_merkle_root (hashes : List (List Nat)) : Option (List Nat) :=
  if hashes.length = 1 then hashes.head?
  else (merkleLoop hashes).head?

/-- `Block::calculate_merkle_root`. -/
def Block.calculate_merkle_root (b : Block) : Option (List Nat) :=
  BitcoinRisc0.calculate_merkle_root (b.txdata.map Transaction.txid)

/-- The Merkle check performed by the guest program
(`methods/guest/src/main.rs` lines 21–23): the computed root is reversed
in place and then asserted equal to `header.merkle_root`. A panic of the
underlying root computation is modelled as `false`. -/
def merkle_matches (b : Block) : Bool :=
  match b.calculate_merkle_root with
  | some root => decide (b.header.merkle_root = root.reverse)
  | none => false

/-- `create_genesis_block_header`. -/
def create_genesis_block_header : Header :=
  { version := 1
    prev_blockhash := List.replicate 32 0
    merkle_root :=
      [59, 163, 237, 253, 122, 123, 18, 178, 122, 199, 44, 62, 103, 118,
       143, 97, 127, 200, 27, 195, 136, 138, 81, 50, 58, 159, 184, 170,
       75, 30, 94, 74]
    time := 0x495fab29
    bits := 0x1d00ffff
    nonce := 0x7c2bac1d }

/-! Helper lemmas. -/

theorem hashPairs_length (l : List (List Nat)) :
    (hashPairs l).length = (l.length + 1) / 2 := by
  induction l using hashPairs.induct with
  | case1 => simp [hashPairs]
  | case2 a => simp [hashPairs]
  | case3 a b rest ih => simp [hashPairs, ih]; omega

theorem merkleLoopGo_fuel (f1 : Nat) : ∀ (f2 : Nat) (h : List (List Nat)),
    h.length ≤ f1 → h.length ≤ f2 → merkleLoopGo f1 h = merkleLoopGo f2 h := by
  induction f1 with
  | zero =>
    intro f2 h h1 _
    have hh : h = [] := List.length_eq_zero.1 (Nat.le_zero.1 h1)
    subst hh
    cases f2 with
    | zero => rfl
    | succ f2 => simp [merkleLoopGo]
  | succ f1 ih =>
    intro f2 h h1 h2
    cases f2 with
    | zero =>
      have hh : h = [] := List.length_eq_zero.1 (Nat.le_zero.1 h2)
      subst hh
      simp [merkleLoopGo]
    | succ f2 =>
      by_cases hlen : 1 < h.length
      · have hp : (hashPairs h).length ≤ f1 := by
          rw [hashPairs_length]; omega
        have hp2 : (hashPairs h).length ≤ f2 := by
          rw [hashPairs_length]; omega
        simp only [merkleLoopGo, if_pos hlen]
        exact ih f2 (hashPairs h) hp hp2
      · simp only [merkleLoopGo, if_neg hlen]

/-- The loop is the identity on levels of at most one hash. -/
theorem merkleLoop_eq_of_le (h : List (List Nat)) (hle : h.length ≤ 1) :
    merkleLoop h = h := by
  unfold merkleLoop
  cases hh : h.length with
  | zero =>
    have he : h = [] := List.length_eq_zero.1 hh
    subst he; rfl
  | succ n =>
    have hn : n = 0 := by omega
    subst hn
    simp [merkleLoopGo, hh]

/-- On a level of more than one hash, the loop replaces the level by its
pairwise hash and continues: together with `merkleLoop_eq_of_le` this is
exactly the semantics of the source's `while` loop. -/
theorem merkleLoop_step (h : List (List Nat)) (hgt : 1 < h.length) :
    merkleLoop h = merkleLoop (hashPairs h) := by
  unfold merkleLoop
  cases hh : h.length with
  | zero => omega
  | succ n =>
    simp only [merkleLoopGo, hh, if_pos (hh ▸ hgt)]
    exact merkleLoopGo_fuel n (hashPairs h).length (hashPairs h)
      (by rw [hashPairs_length]; omega) (Nat.le_refl _)

theorem leNat_append (l1 l2 : List Nat) :
    leNat (l1 ++ l2) = leNat l1 + 256 ^ l1.length * leNat l2 := by
  induction l1 with
  | nil => simp [leNat]
  | cons a t ih =>
    simp only [List.cons_append, leNat, List.foldr_cons, List.length_cons] at *
    rw [ih]
    ring

theorem leNat_lt (l : List Nat) (hb : ∀ b ∈ l, b < 256) :
    leNat l < 256 ^ l.length := by
  induction l with
  | nil => simp [leNat]
  | cons a t ih =>
    have ha : a < 256 := hb a (List.mem_cons_self a t)
    have ht : leNat t < 256 ^ t.length := ih fun b h => hb b (List.mem_cons_of_mem a h)
    have hstep : leNat (a :: t) = a + 256 * leNat t := rfl
    rw [List.length_cons, hstep, pow_succ]
    have h2 : 256 * leNat t ≤ 256 * (256 ^ t.length - 1) :=
      Nat.mul_le_mul_left 256 (by omega)
    have h3 : 1 ≤ 256 ^ t.length := Nat.one_le_pow _ _ (by norm_num)
    omega

theorem wordsToBytes_length (ws : List Nat) :
    (wordsToBytes ws).length = 4 * ws.length := by
  induction ws with
  | nil => simp [wordsToBytes]
  | cons w t ih =>
    simp only [wordsToBytes, List.flatMap_cons, List.length_append, List.length_cons] at *
    simp [ih]
    ring

theorem wordsToBytes_lt (ws : List Nat) : ∀ b ∈ wordsToBytes ws, b < 256 := by
  induction ws with
  | nil => simp [wordsToBytes]
  | cons w t ih =>
    intro b hb
    simp only [wordsToBytes, List.flatMap_cons, List.mem_append] at hb
    rcases hb with hb | hb
    · have h255 : ∀ x : Nat, x &&& 0xFF < 256 := fun x =>
        Nat.lt_succ_of_le Nat.and_le_right
      simp only [List.mem_cons, List.not_mem_nil, or_false] at hb
      rcases hb with rfl | rfl | rfl | rfl <;> exact h255 _
    · exact ih b hb

theorem sha256_length (msg : List Nat) : (sha256 msg).length = 32 := by
  unfold sha256
  rw [wordsToBytes_length]
  simp

theorem sha256_lt (msg : List Nat) : ∀ b ∈ sha256 msg, b < 256 := by
  unfold sha256
  exact wordsToBytes_lt _

theorem sha256d_length (msg : List Nat) : (sha256d msg).length = 32 :=
  sha256_length _

theorem sha256d_lt (msg : List Nat) : ∀ b ∈ sha256d msg, b < 256 :=
  sha256_lt _

/-- Lexicographic comparison of the two halves is numeric comparison,
provided both low halves are in range. -/
theorem U256.le_iff_value (a b : U256) (ha : a.lo < 2 ^ 128) (hb : b.lo < 2 ^ 128) :
    U256.le a b ↔ a.value ≤ b.value := by
  unfold U256.le U256.value
  constructor
  · intro h
    rcases h with h | ⟨he, hl⟩
    · have h1 : a.hi + 1 ≤ b.hi := h
      exact Nat.le_of_lt
        (calc a.hi * 2 ^ 128 + a.lo
            < a.hi * 2 ^ 128 + 2 ^ 128 := by omega
          _ = (a.hi + 1) * 2 ^ 128 := by ring
          _ ≤ b.hi * 2 ^ 128 := Nat.mul_le_mul_right _ h1
          _ ≤ b.hi * 2 ^ 128 + b.lo := Nat.le_add_right _ _)
    · rw [he]; omega
  · intro h
    rcases Nat.lt_trichotomy a.hi b.hi with hc | hc | hc
    · exact Or.inl hc
    · right
      refine ⟨hc, ?_⟩
      rw [hc] at h
      omega
    · exfalso
      have h1 : b.hi + 1 ≤ a.hi := hc
      have : b.hi * 2 ^ 128 + b.lo < a.hi * 2 ^ 128 + a.lo :=
        calc b.hi * 2 ^ 128 + b.lo
            < b.hi * 2 ^ 128 + 2 ^ 128 := by omega
          _ = (b.hi + 1) * 2 ^ 128 := by ring
          _ ≤ a.hi * 2 ^ 128 := Nat.mul_le_mul_right _ h1
          _ ≤ a.hi * 2 ^ 128 + a.lo := Nat.le_add_right _ _
      omega

theorem pow256_16 : (256 : Nat) ^ 16 = 2 ^ 128 := by norm_num

/-- The whole 32-byte buffer decodes to the 256-bit value of the pair. -/
theorem U256.value_from_le_bytes (a : List Nat) (ha : 16 ≤ a.length) :
    (U256.from_le_bytes a).value = leNat a := by
  unfold U256.from_le_bytes split_in_half U256.value
  simp only
  conv_rhs => rw [← List.take_append_drop 16 a]
  rw [leNat_append]
  have hlen : (a.take 16).length = 16 := by
    rw [List.length_take]
    omega
  rw [hlen, pow256_16]
  ring

theorem wrapping_shl_lo_lt (v : U256) (n : Nat) :
    (U256.wrapping_shl v n).lo < 2 ^ 128 := by
  unfold U256.wrapping_shl
  by_cases h : 128 ≤ n &&& 0xff
  · simp [h]
  · simp only [h, if_false, if_neg h]
    exact Nat.mod_lt _ (by norm_num)

theorem target_lo_lt (h : Header) : (Header.target h).lo < 2 ^ 128 := by
  unfold Header.target
  simp only
  split <;> split <;>
    first
      | exact wrapping_shl_lo_lt _ _
      | norm_num [U256.ZERO]

theorem mask_ff (x : Nat) : x &&& 0xff = x % 256 := by
  have h := Nat.and_pow_two_sub_one_eq_mod x 8
  norm_num at h
  exact h

theorem mul_add_mod_of_lt (A r b c : Nat) (hr : r < c) :
    (A * c + r) % (b * c) = A % b * c + r := by
  by_cases hb : b = 0
  · subst hb
    simp [Nat.mod_zero]
  · have hb0 : 0 < b := Nat.pos_of_ne_zero hb
    conv_lhs => rw [← Nat.div_add_mod A b]
    have expand : (b * (A / b) + A % b) * c + r = b * c * (A / b) + (A % b * c + r) := by
      ring
    rw [expand, Nat.mul_add_mod]
    have h1 : A % b < b := Nat.mod_lt _ hb0
    have h2 : A % b * c ≤ (b - 1) * c := Nat.mul_le_mul_right c (by omega)
    have h3 : (b - 1) * c + c = b * c := by
      cases b with
      | zero => omega
      | succ m => simp [Nat.succ_sub_one]; ring
    exact Nat.mod_eq_of_lt (by omega)

/-- `wrapping_shl` in plain arithmetic form (valid when the low half is
in range, as the `u128` field always is). -/
theorem wrapping_shl_eq_arith (v : U256) (n : Nat) (hlo : v.lo < 2 ^ 128) :
    U256.wrapping_shl v n =
      if 128 ≤ n % 256 then
        ⟨v.lo * 2 ^ (n % 256 - 128) % 2 ^ 128, 0⟩
      else
        ⟨(v.hi * 2 ^ (n % 256) + v.lo / 2 ^ (128 - n % 256)) % 2 ^ 128,
         v.lo * 2 ^ (n % 256) % 2 ^ 128⟩ := by
  unfold U256.wrapping_shl
  rw [mask_ff]
  by_cases h : 128 ≤ n % 256
  · have hs : n % 256 < 256 := Nat.mod_lt _ (by norm_num)
    have hmod : n % 256 % 128 = n % 256 - 128 := by omega
    simp only [if_pos h, hmod, Nat.shiftLeft_eq]
  · have hmod : n % 256 % 128 = n % 256 := Nat.mod_eq_of_lt (by omega)
    simp only [if_neg h, hmod, Nat.shiftLeft_eq, Nat.shiftRight_eq_div_pow]
    by_cases h0 : 0 < n % 256
    · simp only [if_pos h0, Nat.mod_add_mod]
    · have hz : n % 256 = 0 := by omega
      simp only [if_neg h0, hz, pow_zero, Nat.mul_one, Nat.sub_zero]
      have hdiv : v.lo / 2 ^ 128 = 0 := Nat.div_eq_of_lt hlo
      rw [hdiv, Nat.add_zero]
      simp

/-! More helper lemmas. -/

theorem hashPairs_append_dup : ∀ (l : List (List Nat)) (x : List Nat),
    l.length % 2 = 1 → l.getLast? = some x → hashPairs (l ++ [x]) = hashPairs l := by
  intro l
  induction l using hashPairs.induct with
  | case1 =>
    intro x h _
    simp at h
  | case2 a =>
    intro x _ hlast
    simp only [List.getLast?_singleton, Option.some.injEq] at hlast
    subst hlast
    rfl
  | case3 a b rest ih =>
    intro x hodd hlast
    have hrest_ne : rest ≠ [] := by
      intro hemp
      rw [hemp] at hodd
      simp at hodd
    obtain ⟨r, rs, rfl⟩ : ∃ r rs, rest = r :: rs := by
      cases rest with
      | nil => exact absurd rfl hrest_ne
      | cons r rs => exact ⟨r, rs, rfl⟩
    rw [List.getLast?_cons_cons, List.getLast?_cons_cons] at hlast
    have hodd2 : (r :: rs).length % 2 = 1 := by
      simp only [List.length_cons] at hodd ⊢
      omega
    have hstep : (a :: b :: r :: rs) ++ [x] = a :: b :: ((r :: rs) ++ [x]) := rfl
    rw [hstep]
    show sha256d (a ++ b) :: hashPairs ((r :: rs) ++ [x])
        = sha256d (a ++ b) :: hashPairs (r :: rs)
    rw [ih x hodd2 hlast]

theorem merkleLoop_ne_nil (n : Nat) : ∀ l : List (List Nat),
    l.length ≤ n → l ≠ [] → merkleLoop l ≠ [] := by
  induction n with
  | zero =>
    intro l hl hne
    exact absurd (List.length_eq_zero.1 (Nat.le_zero.1 hl)) hne
  | succ n ih =>
    intro l hl hne
    by_cases h1 : 1 < l.length
    · rw [merkleLoop_step l h1]
      apply ih
      · rw [hashPairs_length]
        omega
      · intro hemp
        have hh := congrArg List.length hemp
        rw [hashPairs_length] at hh
        simp at hh
        omega
    · rw [merkleLoop_eq_of_le l (by omega)]
      exact hne

/-! Claims. -/

/-- C3: `validate_target` returns true exactly when the double-SHA256 of
the 80-byte header serialization, read directly as a little-endian
256-bit number with no byte reversal, is at most the decoded target. -/
theorem C3_validate_target_iff (h : Header) :
    h.validate_target = true ↔ leNat h.calculate_hash ≤ (Header.target h).value := by
  show decide (U256.le (U256.from_le_bytes h.calculate_hash) (Header.target h)) = true ↔ _
  rw [decide_eq_true_eq]
  have hlen : h.calculate_hash.length = 32 := sha256d_length _
  have hbytes : ∀ b ∈ h.calculate_hash, b < 256 := sha256d_lt _
  have hlo1 : (U256.from_le_bytes h.calculate_hash).lo < 2 ^ 128 := by
    show leNat (h.calculate_hash.take 16) < 2 ^ 128
    have h1 := leNat_lt (h.calculate_hash.take 16)
      fun b hb => hbytes b (List.mem_of_mem_take hb)
    have h2 : (h.calculate_hash.take 16).length = 16 := by
      rw [List.length_take]
      omega
    rw [h2, pow256_16] at h1
    exact h1
  have hlo2 : (Header.target h).lo < 2 ^ 128 := target_lo_lt h
  rw [U256.le_iff_value _ _ hlo1 hlo2, U256.value_from_le_bytes _ (by omega)]

/-- C6: the serialized header is exactly 80 bytes: version (LE i32) at
0–3, previous hash verbatim at 4–35, merkle root verbatim at 36–67,
time (LE u32) at 68–71, bits (LE u32) at 72–75, nonce (LE u32) at
76–79. -/
theorem C6_serialize_layout (h : Header)
    (hp : h.prev_blockhash.length = 32) (hm : h.merkle_root.length = 32) :
    h.serialize_block_header.length = 80 ∧
    h.serialize_block_header.take 4 = i32_le h.version ∧
    (h.serialize_block_header.drop 4).take 32 = h.prev_blockhash ∧
    (h.serialize_block_header.drop 36).take 32 = h.merkle_root ∧
    (h.serialize_block_header.drop 68).take 4 = u32_le h.time ∧
    (h.serialize_block_header.drop 72).take 4 = u32_le h.bits ∧
    (h.serialize_block_header.drop 76).take 4 = u32_le h.nonce := by
  have hi32 : (i32_le h.version).length = 4 := rfl
  have ht32 : (u32_le h.time).length = 4 := rfl
  have hb32 : (u32_le h.bits).length = 4 := rfl
  have hn32 : (u32_le h.nonce).length = 4 := rfl
  refine ⟨?_, ?_, ?_, ?_, ?_, ?_, ?_⟩
  · simp [Header.serialize_block_header, hi32, ht32, hb32, hn32, hp, hm, i32_le, u32_le]
  · have e : h.serialize_block_header = i32_le h.version ++
        (h.prev_blockhash ++ (h.merkle_root ++
          (u32_le h.time ++ (u32_le h.bits ++ u32_le h.nonce)))) := by
      unfold Header.serialize_block_header
      simp [List.append_assoc]
    rw [e]
    exact List.take_left' hi32
  · have e : h.serialize_block_header = i32_le h.version ++
        (h.prev_blockhash ++ (h.merkle_root ++
          (u32_le h.time ++ (u32_le h.bits ++ u32_le h.nonce)))) := by
      unfold Header.serialize_block_header
      simp [List.append_assoc]
    rw [e, List.drop_left' hi32]
    exact List.take_left' hp
  · have e : h.serialize_block_header = (i32_le h.version ++ h.prev_blockhash) ++
        (h.merkle_root ++ (u32_le h.time ++ (u32_le h.bits ++ u32_le h.nonce))) := by
      unfold Header.serialize_block_header
      simp [List.append_assoc]
    rw [e, List.drop_left' (by simp [hi32, hp])]
    exact List.take_left' hm
  · have e : h.serialize_block_header =
        (i32_le h.version ++ h.prev_blockhash ++ h.merkle_root) ++
          (u32_le h.time ++ (u32_le h.bits ++ u32_le h.nonce)) := by
      unfold Header.serialize_block_header
      simp [List.append_assoc]
    rw [e, List.drop_left' (by simp [hi32, hp, hm])]
    exact List.take_left' ht32
  · have e : h.serialize_block_header =
        (i32_le h.version ++ h.prev_blockhash ++ h.merkle_root ++ u32_le h.time) ++
          (u32_le h.bits ++ u32_le h.nonce) := by
      unfold Header.serialize_block_header
      simp [List.append_assoc]
    rw [e, List.drop_left' (by simp [hi32, hp, hm, ht32])]
    exact List.take_left' hb32
  · have e : h.serialize_block_header =
        (i32_le h.version ++ h.prev_blockhash ++ h.merkle_root ++ u32_le h.time ++
            u32_le h.bits) ++ u32_le h.nonce := by
      unfold Header.serialize_block_header
      simp [List.append_assoc]
    rw [e, List.drop_left' (by simp [hi32, hp, hm, ht32, hb32])]
    rw [show (4 : Nat) = (u32_le h.nonce).length from rfl, List.take_length]

/-- C6, witness at the genesis header. -/
theorem C6_witness :
    create_genesis_block_header.serialize_block_header.length = 80 ∧
    create_genesis_block_header.serialize_block_header.take 4 =
      i32_le create_genesis_block_header.version ∧
    (create_genesis_block_header.serialize_block_header.drop 4).take 32 =
      create_genesis_block_header.prev_blockhash ∧
    (create_genesis_block_header.serialize_block_header.drop 36).take 32 =
      create_genesis_block_header.merkle_root ∧
    (create_genesis_block_header.serialize_block_header.drop 68).take 4 =
      u32_le create_genesis_block_header.time ∧
    (create_genesis_block_header.serialize_block_header.drop 72).take 4 =
      u32_le create_genesis_block_header.bits ∧
    (create_genesis_block_header.serialize_block_header.drop 76).take 4 =
      u32_le create_genesis_block_header.nonce :=
  C6_serialize_layout create_genesis_block_header (by decide) (by decide)

/-- C7: `calculate_merkle_root` returns a single leaf unchanged, and on
two or more hashes reduces the level by `hashPairs` — which double-hashes
adjacent pairs strictly left to right and pairs a trailing unpaired hash
with a copy of itself — repeating until a single hash remains. -/
theorem C7_merkle_levels :
    (∀ a : List Nat, calculate_merkle_root [a] = some a) ∧
    (∀ l : List (List Nat), 2 ≤ l.length →
      calculate_merkle_root l = calculate_merkle_root (hashPairs l)) ∧
    hashPairs ([] : List (List Nat)) = [] ∧
    (∀ a : List Nat, hashPairs [a] = [sha256d (a ++ a)]) ∧
    (∀ (a b : List Nat) (t : List (List Nat)),
      hashPairs (a :: b :: t) = sha256d (a ++ b) :: hashPairs t) := by
  refine ⟨fun a => rfl, ?_, rfl, fun a => rfl, fun a b t => rfl⟩
  intro l hl
  have hne : ¬l.length = 1 := by omega
  have hgt : 1 < l.length := by omega
  unfold calculate_merkle_root
  rw [if_neg hne, merkleLoop_step l hgt]
  by_cases hone : (hashPairs l).length = 1
  · rw [if_pos hone, merkleLoop_eq_of_le _ (by omega)]
  · rw [if_neg hone]

/-- C7, witness: the single-leaf case at `[[7]]` and the reduction step
at the two-leaf level `[[0], [1]]`. -/
theorem C7_witness :
    calculate_merkle_root [[7]] = some [7] ∧
    2 ≤ ([[0], [1]] : List (List Nat)).length ∧
    calculate_merkle_root [[0], [1]] = calculate_merkle_root (hashPairs [[0], [1]]) :=
  ⟨C7_merkle_levels.1 [7], by decide, C7_merkle_levels.2.1 [[0], [1]] (by decide)⟩

/-- C9: appending a copy of the last leaf to an odd-length list of at
least three leaves yields a different leaf list with the same Merkle
root — the inherited duplicate-last-leaf ambiguity. -/
theorem C9_duplicate_last_ambiguity (l : List (List Nat)) (x : List Nat)
    (hodd : l.length % 2 = 1) (hlen : 3 ≤ l.length) (hlast : l.getLast? = some x) :
    calculate_merkle_root (l ++ [x]) = calculate_merkle_root l ∧ l ++ [x] ≠ l := by
  constructor
  · have h1 : ¬(l ++ [x]).length = 1 := by
      simp only [List.length_append, List.length_cons, List.length_nil]
      omega
    have h2 : ¬l.length = 1 := by omega
    unfold calculate_merkle_root
    rw [if_neg h1, if_neg h2,
      merkleLoop_step _ (by simp only [List.length_append, List.length_cons, List.length_nil]; omega),
      merkleLoop_step l (by omega), hashPairs_append_dup l x hodd hlast]
  · intro heq
    have hh := congrArg List.length heq
    simp at hh

/-- C9, witness at the three-leaf list with leaves `[0]`, `[1]`, `[2]`. -/
theorem C9_witness :
    calculate_merkle_root [[0], [1], [2], [2]] = calculate_merkle_root [[0], [1], [2]] ∧
      [[0], [1], [2], [2]] ≠ ([[0], [1], [2]] : List (List Nat)) := by
  have h := C9_duplicate_last_ambiguity [[0], [1], [2]] [2] (by decide) (by decide) (by decide)
  simpa using h

/-- C10: `calculate_merkle_root` of an empty list hits the out-of-bounds
`hashes[0]` (modelled `none`), so `Block::calculate_merkle_root` of a
transactionless block panics; on any non-empty list every index is in
bounds and a root is produced. -/
theorem C10_empty_panics :
    calculate_merkle_root ([] : List (List Nat)) = none ∧
    (∀ b : Block, b.txdata = [] → b.calculate_merkle_root = none) ∧
    (∀ l : List (List Nat), l ≠ [] → (calculate_merkle_root l).isSome = true) := by
  refine ⟨rfl, ?_, ?_⟩
  · intro b hb
    unfold Block.calculate_merkle_root
    rw [hb]
    rfl
  · intro l hne
    unfold calculate_merkle_root
    by_cases h1 : l.length = 1
    · rw [if_pos h1]
      cases l with
      | nil => simp at h1
      | cons a t => simp
    · rw [if_neg h1]
      have hml := merkleLoop_ne_nil l.length l (Nat.le_refl _) hne
      cases hmll : merkleLoop l with
      | nil => exact absurd hmll hml
      | cons a t => simp

/-- C10, witness: a transactionless block panics (`none`) and the
singleton list `[[5]]` yields a root. -/
theorem C10_witness :
    Block.calculate_merkle_root ⟨⟨1, [], [], 0, 0, 0⟩, []⟩ = none ∧
      (calculate_merkle_root [[5]]).isSome = true :=
  ⟨C10_empty_panics.2.1 ⟨⟨1, [], [], 0, 0, 0⟩, []⟩ rfl,
   C10_empty_panics.2.2 [[5]] (by decide)⟩

set_option maxRecDepth 100000

/-- C2, counterexample: a single-transaction block whose header stores
the byte-reversed computed root. The guest's comparison (which reverses
the computed root first) succeeds, yet the computed root itself differs
from the header field — so the comparison is not reversal-free as
claimed. -/
theorem C2_counterexample :
    merkle_matches ⟨⟨1, List.replicate 32 0, (sha256d []).reverse, 0, 0, 0⟩, [⟨[]⟩]⟩ = true ∧
    Block.calculate_merkle_root
        ⟨⟨1, List.replicate 32 0, (sha256d []).reverse, 0, 0, 0⟩, [⟨[]⟩]⟩ ≠
      some ((⟨1, List.replicate 32 0, (sha256d []).reverse, 0, 0, 0⟩ : Header).merkle_root) := by
  constructor
  · decide
  · decide

/-- C2, amended: `merkle_matches` holds exactly when the header's
`merkle_root` field equals the byte-for-byte REVERSAL of the Merkle root
computed from the transactions' txids. -/
theorem C2_amended_merkle_matches (b : Block) (root : List Nat)
    (hr : b.calculate_merkle_root = some root) :
    merkle_matches b = true ↔ b.header.merkle_root = root.reverse := by
  unfold merkle_matches
  rw [hr]
  simp

/-- C2, witness for the amended statement at the same concrete block. -/
theorem C2_amended_witness :
    merkle_matches ⟨⟨1, List.replicate 32 0, (sha256d []).reverse, 0, 0, 0⟩, [⟨[]⟩]⟩ = true ↔
      (⟨1, List.replicate 32 0, (sha256d []).reverse, 0, 0, 0⟩ : Header).merkle_root =
        (sha256d []).reverse :=
  C2_amended_merkle_matches
    ⟨⟨1, List.replicate 32 0, (sha256d []).reverse, 0, 0, 0⟩, [⟨[]⟩]⟩
    (sha256d []) (by decide)

/-- C8: the historical genesis header's double-SHA256 hash, reversed
byte for byte, is the well-known genesis block hash, and the header
satisfies its own proof-of-work target. -/
theorem C8_genesis_known_value :
    (create_genesis_block_header.calculate_hash).reverse =
      [0, 0, 0, 0, 0, 25, 214, 104, 156, 8, 90, 225, 101, 131, 30, 147,
       79, 247, 99, 174, 70, 162, 166, 193, 114, 179, 241, 182, 10, 140,
       226, 111] ∧
    create_genesis_block_header.validate_target = true := by
  constructor
  · decide
  · decide

/-- C1, counterexample: for `bits = 0x02800000` the low 24 bits are
`0x800000 > 0x7F_FFFF`, yet `Header::target` is not `ZERO`: with
exponent `2 <= 3` the mantissa is right-shifted to `0x8000` before the
sign check, so the short-circuit does not fire. -/
theorem C1_counterexample :
    0x7FFFFF < 0x02800000 &&& 0xFFFFFF ∧
      Header.target ⟨1, [], [], 0, 0x02800000, 0⟩ ≠ U256.ZERO := by
  decide

/-- C1, amended: the `mant > 0x7F_FFFF` short-circuit to `ZERO` applies
to the decoded mantissa: for exponent `> 3` that is the raw low 24 bits
(checked before the left shift), but for exponent `<= 3` it is the
mantissa after the right shift by `8 * (3 - exponent)`. -/
theorem C1_amended_sign_check (h : Header) :
    (3 < h.bits >>> 24 → 0x7FFFFF < h.bits &&& 0xFFFFFF →
      Header.target h = U256.ZERO) ∧
    (h.bits >>> 24 ≤ 3 →
      0x7FFFFF < (h.bits &&& 0xFFFFFF) >>> (8 * (3 - h.bits >>> 24)) →
      Header.target h = U256.ZERO) := by
  constructor
  · intro he hm
    have hc : ¬h.bits >>> 24 ≤ 3 := Nat.not_le.2 he
    simp [Header.target, hc, hm]
  · intro he hm
    simp [Header.target, he, hm]

/-- C1, witness for the amended statement at `bits = 0x04800000`
(exponent 4) and `bits = 0x03800000` (exponent 3). -/
theorem C1_amended_witness :
    (3 < 0x04800000 >>> 24 ∧ 0x7FFFFF < 0x04800000 &&& 0xFFFFFF ∧
      Header.target ⟨1, [], [], 0, 0x04800000, 0⟩ = U256.ZERO) ∧
    (0x03800000 >>> 24 ≤ 3 ∧
      0x7FFFFF < (0x03800000 &&& 0xFFFFFF) >>> (8 * (3 - 0x03800000 >>> 24)) ∧
      Header.target ⟨1, [], [], 0, 0x03800000, 0⟩ = U256.ZERO) := by
  refine ⟨⟨by decide, by decide, ?_⟩, ⟨by decide, by decide, ?_⟩⟩
  · exact (C1_amended_sign_check ⟨1, [], [], 0, 0x04800000, 0⟩).1 (by decide) (by decide)
  · exact (C1_amended_sign_check ⟨1, [], [], 0, 0x03800000, 0⟩).2 (by decide) (by decide)

/-- C4: `U256::from_le_bytes` reads the first 16 bytes as the
little-endian low half and the last 16 bytes as the little-endian high
half, both genuinely 128-bit, and the whole 32-byte buffer is the
little-endian representation of `high * 2^128 + low`. -/
theorem C4_from_le_bytes_halves (a : List Nat) (hlen : a.length = 32)
    (hb : ∀ b ∈ a, b < 256) :
    (U256.from_le_bytes a).lo = leNat (a.take 16) ∧
    (U256.from_le_bytes a).hi = leNat (a.drop 16) ∧
    (U256.from_le_bytes a).lo < 2 ^ 128 ∧
    (U256.from_le_bytes a).hi < 2 ^ 128 ∧
    leNat a = (U256.from_le_bytes a).hi * 2 ^ 128 + (U256.from_le_bytes a).lo := by
  refine ⟨rfl, rfl, ?_, ?_, ?_⟩
  · show leNat (a.take 16) < 2 ^ 128
    have h1 : leNat (a.take 16) < 256 ^ (a.take 16).length :=
      leNat_lt _ fun b h => hb b (List.mem_of_mem_take h)
    have h2 : (a.take 16).length = 16 := by
      rw [List.length_take]
      omega
    rw [h2, pow256_16] at h1
    exact h1
  · show leNat (a.drop 16) < 2 ^ 128
    have h1 : leNat (a.drop 16) < 256 ^ (a.drop 16).length :=
      leNat_lt _ fun b h => hb b (List.mem_of_mem_drop h)
    have h2 : (a.drop 16).length = 16 := by
      rw [List.length_drop]
      omega
    rw [h2, pow256_16] at h1
    exact h1
  · exact (U256.value_from_le_bytes a (by omega)).symm

/-- C4, witness at the 32-byte buffer `[0, 1, ..., 31]`. -/
theorem C4_witness :
    (U256.from_le_bytes (List.range 32)).lo = leNat ((List.range 32).take 16) ∧
    (U256.from_le_bytes (List.range 32)).hi = leNat ((List.range 32).drop 16) ∧
    (U256.from_le_bytes (List.range 32)).lo < 2 ^ 128 ∧
    (U256.from_le_bytes (List.range 32)).hi < 2 ^ 128 ∧
    leNat (List.range 32) =
      (U256.from_le_bytes (List.range 32)).hi * 2 ^ 128 +
        (U256.from_le_bytes (List.range 32)).lo :=
  C4_from_le_bytes_halves (List.range 32) (by decide) (by decide)

/-- C5: `wrapping_shl` reduces the shift amount modulo 256 and computes
`value * 2 ^ (n mod 256) mod 2 ^ 256`, discarding bits shifted past bit
255; a reduced shift of 128 or more zeroes the low half. -/
theorem C5_wrapping_shl_value (v : U256) (n : Nat) (hlo : v.lo < 2 ^ 128) :
    (U256.wrapping_shl v n).value = v.value * 2 ^ (n % 256) % 2 ^ 256 ∧
    (128 ≤ n % 256 → (U256.wrapping_shl v n).lo = 0) := by
  rw [wrapping_shl_eq_arith v n hlo]
  have hs : n % 256 < 256 := Nat.mod_lt _ (by norm_num)
  constructor
  · by_cases h : 128 ≤ n % 256
    · rw [if_pos h]
      simp only [U256.value]
      have h2s : (2 : Nat) ^ (n % 256) = 2 ^ (n % 256 - 128) * 2 ^ 128 := by
        rw [← pow_add]
        congr 1
        omega
      rw [h2s]
      have h2562 : (2 : Nat) ^ 128 * 2 ^ 128 = 2 ^ 256 := by
        rw [← pow_add]
      have expand : (v.hi * 2 ^ 128 + v.lo) * (2 ^ (n % 256 - 128) * 2 ^ 128)
          = v.lo * 2 ^ (n % 256 - 128) * 2 ^ 128 + v.hi * 2 ^ (n % 256 - 128) * 2 ^ 256 := by
        rw [← h2562]
        ring
      rw [expand, Nat.add_mul_mod_self_right, ← h2562, Nat.mul_mod_mul_right]
      omega
    · rw [if_neg h]
      simp only [U256.value]
      have hsplit : (2 : Nat) ^ 128 = 2 ^ (128 - n % 256) * 2 ^ (n % 256) := by
        rw [← pow_add]
        congr 1
        omega
      have hq := Nat.div_add_mod v.lo (2 ^ (128 - n % 256))
      have expand : (v.hi * 2 ^ 128 + v.lo) * 2 ^ (n % 256)
          = (v.hi * 2 ^ (n % 256) + v.lo / 2 ^ (128 - n % 256)) * 2 ^ 128 +
              v.lo % 2 ^ (128 - n % 256) * 2 ^ (n % 256) := by
        conv_lhs => rw [← hq]
        rw [hsplit]
        ring
      rw [expand]
      have hr : v.lo % 2 ^ (128 - n % 256) * 2 ^ (n % 256) < 2 ^ 128 := by
        rw [hsplit]
        have hm : v.lo % 2 ^ (128 - n % 256) < 2 ^ (128 - n % 256) :=
          Nat.mod_lt _ (pow_pos (by norm_num) _)
        exact Nat.mul_lt_mul_of_lt_of_le hm (Nat.le_refl _) (pow_pos (by norm_num) _)
      have h2562 : (2 : Nat) ^ 256 = 2 ^ 128 * 2 ^ 128 := by
        rw [← pow_add]
      rw [h2562, mul_add_mod_of_lt _ _ _ _ hr]
      have hlopart : v.lo * 2 ^ (n % 256) % 2 ^ 128
          = v.lo % 2 ^ (128 - n % 256) * 2 ^ (n % 256) := by
        rw [hsplit, Nat.mul_mod_mul_right]
      omega
  · intro h
    rw [if_pos h]

/-- C5, witness at `v = (hi 1, lo 3)`, `n = 130`. -/
theorem C5_witness :
    (U256.wrapping_shl ⟨1, 3⟩ 130).value = (U256.value ⟨1, 3⟩) * 2 ^ (130 % 256) % 2 ^ 256 ∧
    (128 ≤ 130 % 256 → (U256.wrapping_shl ⟨1, 3⟩ 130).lo = 0) :=
  C5_wrapping_shl_value ⟨1, 3⟩ 130 (by norm_num)

end BitcoinRisc0
